import Mathlib

/-!
Verification development for the options-cockpit analytics core.

The Python sources under `backend/app` are shallowly embedded below.
Floating-point numbers are idealized as rationals (`ℚ`); Python's `round`
(banker's rounding, half-to-even) is modelled exactly by `rhe`/`roundTo`.
Random draws (Monte-Carlo terminal prices, chain jitter) are injected as
explicit parameters, and the transcendental Black-Scholes price used by the
implied-vol solver is injected as a function parameter; the real-valued
Black-Scholes pricer itself is embedded separately over `ℝ` with `erf`
abstracted as a parameter of the development.
-/

namespace OptionsCockpit

/-! ## Python `round` : round half to even, to `d` decimal digits -/

/-- Round a rational to the nearest integer, ties going to the even
integer — the semantics of Python's builtin `round(x)`. -/
def rhe (x : ℚ) : ℤ :=
  let n := ⌊x⌋
  let f := x - (n : ℚ)
  if f < 1/2 then n
  else if 1/2 < f then n + 1
  else if n % 2 = 0 then n else n + 1

/-- Python's `round(x, d)`: round half-to-even at `d` decimal digits. -/
def roundTo (d : ℕ) (x : ℚ) : ℚ := ((rhe (x * 10 ^ d) : ℚ)) / 10 ^ d

/-! ## `app/options/portfolio.py` : P&L curve and breakevens -/

/-- `PLPoint` of `app/options/portfolio.py`: one sample of a P&L curve. -/
structure PLPoint where
  underlying : ℚ
  pnl : ℚ
  deriving DecidableEq, Repr

/-- The pair scan of `breakevens_from_curve`
(`for a, b in zip(curve, curve[1:])`): an exact zero at the left sample is
reported directly, a sign change is linearly interpolated. -/
def besRaw : List PLPoint → List ℚ
  | a :: b :: rest =>
    (if a.pnl = 0 then [a.underlying]
     else if a.pnl * b.pnl < 0 then
       [a.underlying + (-a.pnl) * (b.underlying - a.underlying) / (b.pnl - a.pnl)]
     else []) ++ besRaw (b :: rest)
  | _ => []

/-- The tail of the dedup loop of `breakevens_from_curve`: `last` is the
value most recently kept (`out[-1]`); keep `x` iff `abs(x - out[-1]) > 1e-6`. -/
def dedupGo (last : ℚ) : List ℚ → List ℚ
  | [] => []
  | x :: xs => if 1/1000000 < |x - last| then x :: dedupGo x xs else dedupGo last xs

/-- The dedup loop of `breakevens_from_curve` (`if not out or
abs(x - out[-1]) > 1e-6: out.append(x)`). -/
def dedupTol : List ℚ → List ℚ
  | [] => []
  | x :: xs => x :: dedupGo x xs

/-- `breakevens_from_curve` of `app/options/portfolio.py`. -/
def breakevens_from_curve (curve : List PLPoint) : List ℚ :=
  if curve.length < 2 then []
  else dedupTol (List.insertionSort (· ≤ ·) (besRaw curve))

/-! ## `app/services/chain_sim.py` : strike ladder of `make_chain` -/

/-- `step = 1 if spot < 100 else 5` in `make_chain`. -/
def chainStep (spot : ℚ) : ℤ := if spot < 100 then 1 else 5

/-- `center = int(round(spot / step) * step)` in `make_chain`. -/
def chainCenter (spot : ℚ) : ℤ := rhe (spot / (chainStep spot : ℚ)) * chainStep spot

/-- The strike ladder of `make_chain`:
`strikes = [center + i * step for i in range(-12, 13)]`.  The quotes, vols,
open interest and volume attached to each strike are random-jittered and are
not part of this deterministic skeleton. -/
def make_chain_strikes (spot : ℚ) : List ℤ :=
  (List.range 25).map (fun (j : ℕ) => chainCenter spot + ((j : ℤ) - 12) * chainStep spot)

/-! ## `app/options/implied_vol.py` -/

/-- Python `str.lower()` (character-wise lowercasing). -/
def pyLower (s : String) : String := ⟨s.data.map Char.toLower⟩

/-- Python `str.strip()` (drop leading and trailing whitespace). -/
def pyStrip (s : String) : String :=
  ⟨((s.data.dropWhile Char.isWhitespace).reverse.dropWhile Char.isWhitespace).reverse⟩

inductive IVError where
  | invalidInput (msg : String)
  | convergenceFailure (msg : String)
  deriving DecidableEq, Repr

/-- `IVResult` of `app/options/implied_vol.py`. -/
structure IVResult where
  implied_vol : ℚ
  iterations : ℕ
  deriving DecidableEq, Repr

/-- The bracket-expansion loop of `implied_vol_bisection`
(`while f_low * f_high > 0 and expand_steps < 20: vol_high *= 1.5; ...`).
Returns the final `(vol_high, f_high)` together with the number of
expansion steps taken; the fuel argument is the remaining step budget. -/
def expandHigh (f : ℚ → ℚ) (f_low : ℚ) : ℕ → ℚ → ℚ → ℚ × ℚ × ℕ
  | 0, vol_high, f_high => (vol_high, f_high, 0)
  | fuel + 1, vol_high, f_high =>
    if 0 < f_low * f_high then
      let vh := vol_high * (3/2)
      let r := expandHigh f f_low fuel vh (f vh)
      (r.1, r.2.1, r.2.2 + 1)
    else (vol_high, f_high, 0)

/-- The bisection loop of `implied_vol_bisection`
(`for i in range(1, max_iter + 1): ...`); `fuel` is the number of remaining
iterations and `i` the 1-based index of the current iteration, so that when
the fuel runs out the function returns the midpoint of the final interval
with `iterations = i - 1 = max_iter`. -/
def bisectLoop (f : ℚ → ℚ) (tol : ℚ) : ℕ → ℕ → ℚ → ℚ → ℚ → IVResult
  | 0, i, low, high, _ => ⟨(low + high) / 2, i - 1⟩
  | fuel + 1, i, low, high, f_low =>
    let mid := (low + high) / 2
    let f_mid := f mid
    if |f_mid| < tol ∨ (high - low) / 2 < tol then ⟨mid, i⟩
    else if f_low * f_mid ≤ 0 then bisectLoop f tol fuel (i + 1) low mid f_low
    else bisectLoop f tol fuel (i + 1) mid high f_mid

/-- The inner function `price_for` of `implied_vol_bisection`: the call or
the put model price, chosen by the normalized option type.
`call_price`/`put_price` abstract `vol ↦ black_scholes(S,K,T,r,q,vol).{call,put}_price`
(a transcendental function of the volatility, injected as a parameter). -/
def price_for (call_price put_price : ℚ → ℚ) (ot : String) : ℚ → ℚ :=
  fun vol => if ot = "call" then call_price vol else put_price vol

/-- The root function bisected by `implied_vol_bisection`:
`f(vol) = price_for(vol) - market_price`. -/
def ivf (call_price put_price : ℚ → ℚ) (ot : String) (market_price : ℚ) : ℚ → ℚ :=
  fun vol => price_for call_price put_price ot vol - market_price

/-- `implied_vol_bisection` of `app/options/implied_vol.py`. -/
def implied_vol_bisection (call_price put_price : ℚ → ℚ) (market_price : ℚ)
    (option_type : String) (vol_low : ℚ := 1/1000000) (vol_high : ℚ := 5)
    (tol : ℚ := 1/1000000) (max_iter : ℕ := 200) : Except IVError IVResult :=
  if market_price ≤ 0 then .error (.invalidInput "market_price must be > 0") else
  let ot := pyStrip (pyLower option_type)
  if ot ≠ "call" ∧ ot ≠ "put" then
    .error (.invalidInput "option_type must be call or put")
  else
    let f := ivf call_price put_price ot market_price
    let f_low := f vol_low
    let r := expandHigh f f_low 20 vol_high (f vol_high)
    if 0 < f_low * r.2.1 then
      .error (.convergenceFailure "Could not bracket implied vol (market price out of model range).")
    else
      .ok (bisectLoop f tol max_iter 1 vol_low r.1 f_low)

/-- One iteration of the bisection loop as a pure step on the state
`(low, high, f_low)` — used to state trajectory properties of `bisectLoop`. -/
def bstep (f : ℚ → ℚ) : ℚ × ℚ × ℚ → ℚ × ℚ × ℚ
  | (low, high, f_low) =>
    let mid := (low + high) / 2
    let f_mid := f mid
    if f_low * f_mid ≤ 0 then (low, mid, f_low) else (mid, high, f_mid)

/-- Midpoint of a bisection state. -/
def midOf (st : ℚ × ℚ × ℚ) : ℚ := (st.1 + st.2.1) / 2

/-- The stopping test of the bisection loop, at a given state. -/
def stopAt (f : ℚ → ℚ) (tol : ℚ) (st : ℚ × ℚ × ℚ) : Prop :=
  |f (midOf st)| < tol ∨ (st.2.1 - st.1) / 2 < tol

instance (f : ℚ → ℚ) (tol : ℚ) (st : ℚ × ℚ × ℚ) : Decidable (stopAt f tol st) := by
  unfold stopAt; infer_instance

/-! ## `app/services/recommender.py`

The Monte-Carlo terminal prices drawn by `simulate_terminal_prices` (a random
lognormal sample) are injected: each candidate evaluation receives the list
`sims` of terminal prices its own call to `simulate_terminal_prices` would
have drawn.  `pick_best_strategy` receives the chain produced by `make_chain`
(random-jittered) and a stream `simss` assigning to the i-th generated
candidate its simulated prices. -/

/-- `_pop` of `app/services/recommender.py`: fraction of strictly profitable
draws, `wins / max(1, len(per_share))`. -/
def _pop (per_share : List ℚ) : ℚ :=
  ((per_share.countP (fun x => decide (0 < x)) : ℤ) : ℚ) /
    ((max 1 per_share.length : ℕ) : ℚ)

/-- `_var_worst_loss_dollars` of `app/services/recommender.py`: worst-tail
loss (VaR-like) over the per-share P&L sample.  `int(...)` truncation is the
floor here since `(1 - a) * (len - 1)` is nonnegative. -/
def _var_worst_loss_dollars (per_share : List ℚ) (alpha : ℚ) (contracts : ℤ) : ℚ :=
  match per_share with
  | [] => 0
  | _ :: _ =>
    let a := min (max alpha (1/2)) (999/1000)
    let sorted_pnl := List.insertionSort (· ≤ ·) per_share
    let idx : ℤ := ⌊(1 - a) * ((per_share.length : ℚ) - 1)⌋
    let idx := min (max idx 0) ((per_share.length : ℤ) - 1)
    let pnl_share := sorted_pnl.getD idx.toNat 0
    let loss_share := max 0 (-pnl_share)
    loss_share * 100 * (contracts : ℚ)

/-- The `max_profit` payload field: a number, or the string `"unlimited"`
used for single calls. -/
inductive MaxProfit where
  | unlimited
  | val (x : ℚ)
  deriving DecidableEq, Repr

/-- The `legs` payload field of a candidate. -/
inductive LegsDesc where
  | singleCall (strike premium : ℚ)
  | bullPut (short_put long_put credit : ℚ)
  deriving DecidableEq, Repr

/-- The `meta` dict attached to each candidate in `pick_best_strategy`. -/
structure CandMeta where
  oi : ℤ
  vol : ℤ
  max_spread_pct : ℚ
  deriving DecidableEq, Repr

/-- A candidate dict of the recommender.  Every key the code may read or
leave absent is an `Option`; the degenerate dict returned by
`ev_bull_put_credit` for an invalid spread populates only `expected_profit`
and `prob_profit`. -/
structure Candidate where
  strategy : Option String := none
  legs : Option LegsDesc := none
  expected_profit : Option ℚ := none
  prob_profit : Option ℚ := none
  entry_cost : Option ℚ := none
  cost_type : Option String := none
  max_loss : Option ℚ := none
  max_profit : Option MaxProfit := none
  breakeven : Option ℚ := none
  var_worst_loss : Option ℚ := none
  reward_risk : Option ℚ := none
  per_share : Option (List ℚ) := none
  meta : Option CandMeta := none
  score : Option ℚ := none
  deriving DecidableEq, Repr

/-- `score_candidate` of `app/services/recommender.py`:
`0.65 * expected_profit + 0.35 * (prob_profit * 100)`, with the dict-get
defaults `-1e18` and `0.0`. -/
def score_candidate (c : Candidate) (pop_weight : ℚ := 35/100)
    (ev_weight : ℚ := 65/100) : ℚ :=
  let ev := c.expected_profit.getD (-(10^18))
  let pop := c.prob_profit.getD 0
  ev_weight * ev + pop_weight * (pop * 100)

/-- `ev_single_call` of `app/services/recommender.py`, with the simulated
terminal prices `sims` injected (the code draws them via
`simulate_terminal_prices(S0, iv, dte)`). -/
def ev_single_call (sims : List ℚ) (S0 K premium iv : ℚ) (dte : ℤ)
    (contracts : ℤ) (var_alpha : ℚ) : Candidate :=
  let per_share := sims.map (fun s => max (s - K) 0 - premium)
  let ev := per_share.sum / (per_share.length : ℚ) * 100 * (contracts : ℚ)
  let pop := _pop per_share
  let max_loss := premium * 100 * (contracts : ℚ)
  let var_loss := _var_worst_loss_dollars per_share var_alpha contracts
  let rr : ℚ := 999999
  { strategy := some "single_call",
    legs := some (.singleCall K premium),
    expected_profit := some (roundTo 2 ev),
    prob_profit := some (roundTo 4 pop),
    entry_cost := some (roundTo 2 (premium * 100 * (contracts : ℚ))),
    cost_type := some "debit",
    max_loss := some (roundTo 2 max_loss),
    max_profit := some .unlimited,
    breakeven := some (roundTo 2 (K + premium)),
    var_worst_loss := some (roundTo 2 var_loss),
    reward_risk := some rr,
    per_share := some per_share }

/-- `ev_bull_put_credit` of `app/services/recommender.py`, with the simulated
terminal prices `sims` injected. -/
def ev_bull_put_credit (sims : List ℚ) (S0 Kshort Klong credit iv : ℚ)
    (dte : ℤ) (contracts : ℤ) (var_alpha : ℚ) : Candidate :=
  let width := max 0 (Kshort - Klong)
  if width ≤ 0 ∨ credit ≤ 0 ∨ width ≤ credit then
    { expected_profit := some (-(10^18)), prob_profit := some 0 }
  else
    let per_share := sims.map (fun s => credit - max (Kshort - s) 0 + max (Klong - s) 0)
    let ev := per_share.sum / (per_share.length : ℚ) * 100 * (contracts : ℚ)
    let pop := _pop per_share
    let max_profit := credit * 100 * (contracts : ℚ)
    let max_loss := (width - credit) * 100 * (contracts : ℚ)
    let var_loss := _var_worst_loss_dollars per_share var_alpha contracts
    let rr := if 0 < max_loss then max_profit / max_loss else 0
    { strategy := some "bull_put_credit_spread",
      legs := some (.bullPut Kshort Klong credit),
      expected_profit := some (roundTo 2 ev),
      prob_profit := some (roundTo 4 pop),
      entry_cost := some (roundTo 2 (credit * 100 * (contracts : ℚ))),
      cost_type := some "credit",
      max_loss := some (roundTo 2 max_loss),
      max_profit := some (.val (roundTo 2 max_profit)),
      breakeven := some (roundTo 2 (Kshort - credit)),
      var_worst_loss := some (roundTo 2 var_loss),
      reward_risk := some (roundTo 4 rr),
      per_share := some per_share }

/-- A bid/ask quote of the simulated chain. -/
structure Quote where
  bid : ℚ
  ask : ℚ
  mid : ℚ
  spread_pct : ℚ
  deriving DecidableEq, Repr

/-- One strike row of the simulated chain (`make_chain` item). -/
structure ChainItem where
  strike : ℚ
  dte : ℤ
  iv : ℚ
  oi : ℤ
  vol : ℤ
  call : Quote
  put : Quote
  deriving DecidableEq, Repr

/-- The chain dict produced by `make_chain`. -/
structure Chain where
  spot : ℚ
  dte : ℤ
  step : ℚ
  items : List ChainItem
  deriving DecidableEq, Repr

/-- `passes_liquidity` of `app/services/recommender.py`.  The fields are
always present on a `ChainItem`, so the `except` branch is unreachable. -/
def passes_liquidity (x : ChainItem) (min_oi min_vol : ℤ) (max_spread_pct : ℚ) : Bool :=
  decide (min_oi ≤ x.oi) && decide (min_vol ≤ x.vol) &&
    decide (max x.call.spread_pct x.put.spread_pct ≤ max_spread_pct)

/-- The keyword arguments of `pick_best_strategy`, with the same defaults. -/
structure RecArgs where
  symbol : String
  spot : ℚ
  dte : ℤ
  contracts : ℤ := 1
  max_loss_dollars : Option ℚ := none
  min_expected_profit : ℚ := -(10^18)
  min_prob_profit : ℚ := 0
  min_oi : ℤ := 0
  min_vol : ℤ := 0
  max_spread_pct : ℚ := 100
  allow_single_call : Bool := true
  allow_bull_put : Bool := true
  min_reward_risk : ℚ := 0
  max_drawdown_dollars : Option ℚ := none
  var_alpha : ℚ := 95/100
  deriving DecidableEq, Repr

/-- The `constraints` echo dict of the success payload. -/
structure ConstraintsEcho where
  max_loss_dollars : Option ℚ
  max_drawdown_dollars : Option ℚ
  var_alpha : ℚ
  min_expected_profit : ℚ
  min_prob_profit : ℚ
  min_reward_risk : ℚ
  min_oi : ℤ
  min_vol : ℤ
  max_spread_pct : ℚ
  allow_single_call : Bool
  allow_bull_put : Bool
  deriving DecidableEq, Repr

/-- The payload returned by `pick_best_strategy`: the error payload populates
`error` and leaves `constraints`/`recommendation` absent, the success payload
the other way round. -/
structure PickResult where
  symbol : String
  spot : ℚ
  dte : ℤ
  contracts : ℤ
  error : Option String := none
  constraints : Option ConstraintsEcho := none
  recommendation : Option Candidate := none
  note : String
  deriving DecidableEq, Repr

/-- The dict `strike_to = {float(x["strike"]): x for x in items}`: lookup
returns the last item carrying the strike (dict overwrite semantics). -/
def strikeTo (items : List ChainItem) (k : ℚ) : Option ChainItem :=
  (items.filter (fun x => decide (x.strike = k))).getLast?

/-- `strikes = sorted(strike_to.keys())`: the distinct strikes, ascending. -/
def sortedKeys (items : List ChainItem) : List ℚ :=
  List.insertionSort (· ≤ ·) (items.map (·.strike)).dedup

/-- The meta dict `pick_best_strategy` attaches to each candidate. -/
def metaOf (x : ChainItem) : CandMeta :=
  ⟨x.oi, x.vol, max x.call.spread_pct x.put.spread_pct⟩

/-- The deterministic data of one candidate-generating loop iteration of
`pick_best_strategy` (everything except the Monte-Carlo draw). -/
inductive CandSpec where
  | single (K premium iv : ℚ) (meta : CandMeta)
  | bullPut (Kshort Klong credit iv : ℚ) (meta : CandMeta)
  deriving DecidableEq, Repr

/-- The single-call generation loop of `pick_best_strategy`
(`if allow_single_call: for x in items: ...`), as the list of candidate
specs in iteration order. -/
def specSingles (args : RecArgs) (items : List ChainItem) : List CandSpec :=
  if args.allow_single_call then
    items.filterMap (fun x =>
      if passes_liquidity x args.min_oi args.min_vol args.max_spread_pct then
        some (.single x.strike x.call.mid x.iv (metaOf x))
      else none)
  else []

/-- The bull-put generation loops of `pick_best_strategy`
(`for Kshort in strikes: ... for w_steps in (1, 2, 3): ...`), as the list of
candidate specs in iteration order. -/
def specSpreads (args : RecArgs) (items : List ChainItem) (step : ℚ) : List CandSpec :=
  if args.allow_bull_put then
    (sortedKeys items).flatMap (fun Kshort =>
      if args.spot < Kshort then []
      else
        match strikeTo items Kshort with
        | none => []
        | some s_item =>
          if ¬ passes_liquidity s_item args.min_oi args.min_vol args.max_spread_pct then []
          else
            ([1, 2, 3] : List ℚ).flatMap (fun w_steps =>
              let Klong := Kshort - w_steps * step
              match strikeTo items Klong with
              | none => []
              | some l_item =>
                if ¬ passes_liquidity l_item args.min_oi args.min_vol args.max_spread_pct then []
                else
                  [.bullPut Kshort Klong
                    (max (1/100) (s_item.put.mid - l_item.put.mid)) s_item.iv
                    (metaOf s_item)]))
  else []

/-- Evaluate one candidate spec with its injected Monte-Carlo draw, and
attach the meta dict (`c["meta"] = ...`). -/
def evalSpec (args : RecArgs) (sims : List ℚ) : CandSpec → Candidate
  | .single K premium iv m =>
    { ev_single_call sims args.spot K premium iv args.dte args.contracts args.var_alpha
        with meta := some m }
  | .bullPut Ks Kl credit iv m =>
    { ev_bull_put_credit sims args.spot Ks Kl credit iv args.dte args.contracts args.var_alpha
        with meta := some m }

/-- The full candidate list built by `pick_best_strategy`, in generation
order; the i-th generated candidate consumes the draw `simss i`. -/
def genCandidates (args : RecArgs) (chain : Chain) (simss : ℕ → List ℚ) : List Candidate :=
  let specs := specSingles args chain.items ++ specSpreads args chain.items chain.step
  specs.enum.map (fun p => evalSpec args (simss p.1) p.2)

/-- The constraint filter of `pick_best_strategy` (the loop building
`constrained`), as the predicate one candidate must pass. -/
def passesConstraints (args : RecArgs) (c : Candidate) : Bool :=
  let ev := c.expected_profit.getD (-(10^18))
  let pop := c.prob_profit.getD 0
  let rr := c.reward_risk.getD 0
  let dd := c.var_worst_loss.getD 0
  (match args.max_loss_dollars, c.max_loss with
   | some cap, some ml => decide (ml ≤ cap)
   | _, _ => true) &&
  (match args.max_drawdown_dollars with
   | some cap => decide (dd ≤ cap)
   | none => true) &&
  decide (args.min_expected_profit ≤ ev) &&
  decide (args.min_prob_profit ≤ pop) &&
  decide (args.min_reward_risk ≤ rr)

/-- Python `max(use, key=score_candidate)` over a non-empty list: the fold
keeps the current best and replaces it only on a strictly greater key, so the
first maximal element wins. -/
def pyMax1 {α : Type} (key : α → ℚ) (x : α) (xs : List α) : α :=
  xs.foldl (fun best c => if key best < key c then c else best) x

/-- The post-selection mutation of the winner: `best["score"] = round(...)`
and `del best["_per_share"]`. -/
def finalizeBest (c : Candidate) : Candidate :=
  { c with score := some (roundTo 2 (score_candidate c)), per_share := none }

/-- `pick_best_strategy` of `app/services/recommender.py`, with the chain
(made by `make_chain(spot, dte)`) and the Monte-Carlo draws injected. -/
def pick_best_strategy (args : RecArgs) (chain : Chain) (simss : ℕ → List ℚ) : PickResult :=
  let candidates := genCandidates args chain simss
  let constrained := candidates.filter (passesConstraints args)
  let use := if constrained.isEmpty then candidates else constrained
  match use with
  | [] =>
    { symbol := args.symbol, spot := roundTo 2 args.spot, dte := args.dte,
      contracts := args.contracts,
      error := some "No candidates available under constraints.",
      note := "Loosen constraints: lower min_reward_risk/min_prob_profit/min_expected_profit, raise max_drawdown/max_loss, or relax liquidity filters." }
  | x :: xs =>
    let best := finalizeBest (pyMax1 score_candidate x xs)
    { symbol := args.symbol, spot := roundTo 2 args.spot, dte := args.dte,
      contracts := args.contracts,
      constraints := some ⟨args.max_loss_dollars, args.max_drawdown_dollars,
        args.var_alpha, args.min_expected_profit, args.min_prob_profit,
        args.min_reward_risk, args.min_oi, args.min_vol, args.max_spread_pct,
        args.allow_single_call, args.allow_bull_put⟩,
      recommendation := some best,
      note := "Max drawdown implemented as VaR-style worst-tail loss over the simulated P&L distribution (not multi-step equity curve drawdown)." }

/-! ## `app/options/black_scholes.py`

Embedded over `ℝ`.  The library function `math.erf` is injected as the
parameter `erf`; the only analytic fact about it the claims use is its
oddness, taken as a hypothesis where needed. -/

/-- `BSResult` of `app/options/black_scholes.py`. -/
structure BSResult where
  call_price : ℝ
  put_price : ℝ
  delta_call : ℝ
  delta_put : ℝ
  gamma : ℝ
  vega : ℝ
  theta_call : ℝ
  theta_put : ℝ
  rho_call : ℝ
  rho_put : ℝ

/-- `SQRT_2PI` of `app/options/black_scholes.py`. -/
noncomputable def SQRT_2PI : ℝ := Real.sqrt (2 * Real.pi)

/-- `_norm_pdf` of `app/options/black_scholes.py`. -/
noncomputable def _norm_pdf (x : ℝ) : ℝ := Real.exp (-(1/2) * x * x) / SQRT_2PI

/-- `_norm_cdf` of `app/options/black_scholes.py`:
`0.5 * (1.0 + math.erf(x / math.sqrt(2.0)))`. -/
noncomputable def _norm_cdf (erf : ℝ → ℝ) (x : ℝ) : ℝ :=
  (1/2) * (1 + erf (x / Real.sqrt 2))

/-- The unguarded body of `black_scholes` (everything after the input
checks). -/
noncomputable def bsCore (erf : ℝ → ℝ) (S K T r q sigma : ℝ) : BSResult :=
  let sqrtT := Real.sqrt T
  let d1 := (Real.log (S / K) + (r - q + (1/2) * sigma * sigma) * T) / (sigma * sqrtT)
  let d2 := d1 - sigma * sqrtT
  let Nd1 := _norm_cdf erf d1
  let Nd2 := _norm_cdf erf d2
  let Nmd1 := _norm_cdf erf (-d1)
  let Nmd2 := _norm_cdf erf (-d2)
  let disc_r := Real.exp (-r * T)
  let disc_q := Real.exp (-q * T)
  let call := S * disc_q * Nd1 - K * disc_r * Nd2
  let put := K * disc_r * Nmd2 - S * disc_q * Nmd1
  let pdf_d1 := _norm_pdf d1
  let delta_c := disc_q * Nd1
  let delta_p := disc_q * (Nd1 - 1)
  let gamma := disc_q * pdf_d1 / (S * sigma * sqrtT)
  let vega := S * disc_q * pdf_d1 * sqrtT
  let theta_c := -S * disc_q * pdf_d1 * sigma / (2 * sqrtT) - r * K * disc_r * Nd2
      + q * S * disc_q * Nd1
  let theta_p := -S * disc_q * pdf_d1 * sigma / (2 * sqrtT) + r * K * disc_r * Nmd2
      - q * S * disc_q * Nmd1
  let rho_c := K * T * disc_r * Nd2
  let rho_p := -(K * T * disc_r * Nmd2)
  ⟨call, put, delta_c, delta_p, gamma, vega, theta_c, theta_p, rho_c, rho_p⟩

open Classical in
/-- `black_scholes` of `app/options/black_scholes.py`: eager input checks
(`InvalidInput` as `Except.error`), then the closed-form result. -/
noncomputable def black_scholes (erf : ℝ → ℝ) (S K T r q sigma : ℝ) :
    Except String BSResult :=
  if S ≤ 0 ∨ K ≤ 0 then .error "S and K must be > 0"
  else if T ≤ 0 then .error "T must be > 0 (years)"
  else if sigma ≤ 0 then .error "sigma must be > 0"
  else .ok (bsCore erf S K T r q sigma)

/-! ## Concrete fixtures (used by witnesses and counterexamples) -/

/-- A liquid at-the-money quote used in test chains. -/
def wQuote : Quote := ⟨4, 6, 5, 10⟩

/-- Chain row at strike 100. -/
def wItem : ChainItem := ⟨100, 30, 2/10, 100, 50, wQuote, wQuote⟩

/-- A one-row chain at spot 100 with step 5. -/
def w3Chain : Chain := ⟨100, 30, 5, [wItem]⟩

/-- A fixed one-draw Monte-Carlo stream. -/
def wSimss : ℕ → List ℚ := fun _ => [100]

/-- Arguments whose probability constraint (`min_prob_profit = 2`) no
candidate can meet, forcing the fallback path. -/
def w1Args : RecArgs :=
  { symbol := "SIM", spot := 100, dte := 30, allow_bull_put := false, min_prob_profit := 2 }

/-- Default-constraint arguments. -/
def w3Args : RecArgs := { symbol := "SIM", spot := 100, dte := 30, allow_bull_put := false }

/-- The single candidate generated under either argument set with `w3Chain`
and `wSimss`. -/
def wCand : Candidate :=
  evalSpec w3Args (wSimss 0) (.single wItem.strike wItem.call.mid wItem.iv (metaOf wItem))

/-- Identity price curve used to exercise the implied-vol solver. -/
def idPrice : ℚ → ℚ := fun v => v

/-! # Theorems -/

/-! ## Rounding lemmas -/

theorem rhe_def (x : ℚ) : rhe x =
    if x - (⌊x⌋ : ℚ) < 1/2 then ⌊x⌋
    else if 1/2 < x - (⌊x⌋ : ℚ) then ⌊x⌋ + 1
    else if ⌊x⌋ % 2 = 0 then ⌊x⌋ else ⌊x⌋ + 1 := rfl

theorem rhe_nonneg {x : ℚ} (hx : 0 ≤ x) : 0 ≤ rhe x := by
  have h : 0 ≤ ⌊x⌋ := Int.floor_nonneg.2 hx
  rw [rhe_def]
  split_ifs <;> omega

theorem rhe_sub_le_half (x : ℚ) : |(rhe x : ℚ) - x| ≤ 1/2 := by
  have h0 : (⌊x⌋ : ℚ) ≤ x := Int.floor_le x
  have h1 : x < (⌊x⌋ : ℚ) + 1 := Int.lt_floor_add_one x
  rw [rhe_def]
  split_ifs with hf1 hf2 hpar
  · rw [abs_le]; constructor <;> push_cast <;> linarith
  · rw [abs_le]; constructor <;> push_cast <;> linarith
  · rw [not_lt] at hf1 hf2
    rw [abs_le]; constructor <;> push_cast <;> linarith
  · rw [not_lt] at hf1 hf2
    rw [abs_le]; constructor <;> push_cast <;> linarith

theorem rhe_mul_close (y s : ℚ) (hs : 0 < s) : |(rhe y : ℚ) * s - y * s| ≤ s / 2 := by
  have h : (rhe y : ℚ) * s - y * s = ((rhe y : ℚ) - y) * s := by ring
  rw [h, abs_mul, abs_of_pos hs]
  calc |(rhe y : ℚ) - y| * s ≤ (1/2) * s :=
        mul_le_mul_of_nonneg_right (rhe_sub_le_half y) hs.le
  _ = s / 2 := by ring

/-! ## Claim C10 -/

/-- C10: the recommender probability of profit counts only strictly positive
outcomes: on a non-empty draw list `_pop` equals the fraction of draws with
per-share P&L `> 0`; a draw with exactly zero P&L is not counted as
profitable; the empty draw list yields probability 0. -/
theorem pop_counts_strict_wins :
    (∀ l : List ℚ, l ≠ [] →
      _pop l = (l.countP (fun x => decide (0 < x)) : ℚ) / (l.length : ℚ)) ∧
    _pop ([] : List ℚ) = 0 ∧
    (∀ l : List ℚ,
      _pop ((0 : ℚ) :: l) = (l.countP (fun x => decide (0 < x)) : ℚ) / ((l.length : ℚ) + 1)) := by
  refine ⟨?_, by unfold _pop; simp, ?_⟩
  · intro l hl
    unfold _pop
    have h1 : 1 ≤ l.length := List.length_pos.2 hl
    rw [max_eq_right h1]
    push_cast
    ring
  · intro l
    unfold _pop
    rw [List.countP_cons]
    norm_num

/-- Witness for C10 at the draw list `[1, 0, -2]`. -/
theorem pop_counts_strict_wins_witness : _pop [(1 : ℚ), 0, -2] = (1 : ℚ) / 3 := by
  have h := pop_counts_strict_wins.1 [(1 : ℚ), 0, -2] (by decide)
  rw [h]
  norm_num

/-! ## Claim C8 -/

theorem make_chain_strikes_getD (spot : ℚ) (i : ℕ) (h : i < 25) :
    (make_chain_strikes spot).getD i 0
      = chainCenter spot + ((i : ℤ) - 12) * chainStep spot := by
  unfold make_chain_strikes
  rw [List.getD_eq_getElem?_getD, List.getElem?_map, List.getElem?_range h]
  rfl

/-- C8: for every positive spot, the strike ladder of `make_chain` has
exactly 25 strikes, consecutive strikes differ by the step (1 below spot 100,
5 from 100 up), and the middle strike is within half a step of the spot
(the ladder is centered on the spot). -/
theorem make_chain_spec (spot : ℚ) (hspot : 0 < spot) :
    (make_chain_strikes spot).length = 25 ∧
    chainStep spot = (if spot < 100 then 1 else 5) ∧
    (∀ i : ℕ, i < 24 →
      (make_chain_strikes spot).getD (i + 1) 0 - (make_chain_strikes spot).getD i 0
        = chainStep spot) ∧
    |(((make_chain_strikes spot).getD 12 0 : ℤ) : ℚ) - spot| ≤ (chainStep spot : ℚ) / 2 := by
  have hstep : (0 : ℚ) < (chainStep spot : ℚ) := by
    unfold chainStep; split_ifs <;> norm_num
  refine ⟨?_, rfl, ?_, ?_⟩
  · unfold make_chain_strikes
    simp
  · intro i hi
    rw [make_chain_strikes_getD spot (i + 1) (by omega), make_chain_strikes_getD spot i (by omega)]
    push_cast
    ring
  · rw [make_chain_strikes_getD spot 12 (by omega)]
    have h12 : ((12 : ℕ) : ℤ) - 12 = 0 := by norm_num
    rw [h12, zero_mul, add_zero]
    unfold chainCenter
    push_cast
    have hys : spot / (chainStep spot : ℚ) * (chainStep spot : ℚ) = spot :=
      div_mul_cancel₀ spot hstep.ne'
    have hb := rhe_mul_close (spot / (chainStep spot : ℚ)) ((chainStep spot : ℚ)) hstep
    rwa [hys] at hb

/-- Witness for C8 at spot 50. -/
theorem make_chain_spec_witness :
    (make_chain_strikes 50).length = 25 ∧
    chainStep 50 = (if (50 : ℚ) < 100 then 1 else 5) ∧
    (∀ i : ℕ, i < 24 →
      (make_chain_strikes 50).getD (i + 1) 0 - (make_chain_strikes 50).getD i 0
        = chainStep 50) ∧
    |(((make_chain_strikes 50).getD 12 0 : ℤ) : ℚ) - 50| ≤ (chainStep 50 : ℚ) / 2 :=
  make_chain_spec 50 (by norm_num)

/-! ## Claim C2 -/

theorem besRaw_zero_mem : ∀ (curve : List PLPoint) (i : ℕ) (hi : i + 1 < curve.length),
    (curve.get ⟨i, by omega⟩).pnl = 0 →
    (curve.get ⟨i, by omega⟩).underlying ∈ besRaw curve := by
  intro curve
  induction curve with
  | nil => intro i hi; simp at hi
  | cons a rest ih =>
    intro i hi hz
    cases rest with
    | nil => simp at hi
    | cons b rest2 =>
      cases i with
      | zero =>
        simp only [List.get] at hz ⊢
        unfold besRaw
        rw [if_pos hz]
        simp
      | succ j =>
        have hj : j + 1 < (b :: rest2).length := by
          simp only [List.length_cons] at hi ⊢; omega
        have hmem := ih j hj (by
          simpa only [List.get] using hz)
        simp only [List.get]
        unfold besRaw
        exact List.mem_append_right _ hmem

theorem dedupGo_cover : ∀ (l : List ℚ) (last y : ℚ), y ∈ l →
    ∃ z, (z = last ∨ z ∈ dedupGo last l) ∧ |y - z| ≤ 1/1000000 := by
  intro l
  induction l with
  | nil => intro last y hy; simp at hy
  | cons x xs ih =>
    intro last y hy
    unfold dedupGo
    rcases List.mem_cons.1 hy with hyx | hyxs
    · subst hyx
      by_cases hk : 1/1000000 < |y - last|
      · exact ⟨y, Or.inr (by rw [if_pos hk]; exact List.mem_cons_self _ _), by simp⟩
      · exact ⟨last, Or.inl rfl, le_of_not_lt hk⟩
    · by_cases hk : 1/1000000 < |x - last|
      · obtain ⟨z, hz, hd⟩ := ih x y hyxs
        refine ⟨z, Or.inr ?_, hd⟩
        rw [if_pos hk]
        rcases hz with h | h
        · rw [h]; exact List.mem_cons_self _ _
        · exact List.mem_cons_of_mem _ h
      · obtain ⟨z, hz, hd⟩ := ih last y hyxs
        refine ⟨z, ?_, hd⟩
        rcases hz with h | h
        · exact Or.inl h
        · exact Or.inr (by rw [if_neg hk]; exact h)

theorem dedupTol_cover (l : List ℚ) (y : ℚ) (hy : y ∈ l) :
    ∃ z ∈ dedupTol l, |y - z| ≤ 1/1000000 := by
  cases l with
  | nil => simp at hy
  | cons x xs =>
    unfold dedupTol
    rcases List.mem_cons.1 hy with hyx | hyxs
    · subst hyx
      exact ⟨y, List.mem_cons_self _ _, by simp⟩
    · obtain ⟨z, hz, hd⟩ := dedupGo_cover xs x y hyxs
      refine ⟨z, ?_, hd⟩
      rcases hz with h | h
      · rw [h]; exact List.mem_cons_self _ _
      · exact List.mem_cons_of_mem _ h

/-- Counterexample for C2: the final curve sample has `pnl = 0.0` but its
underlying (2) is not in the returned breakeven list — the scan never treats
the last point as a left pair element. -/
theorem breakevens_last_zero_missed :
    (([⟨1, 5⟩, ⟨2, 0⟩] : List PLPoint).get ⟨1, by norm_num⟩).pnl = 0 ∧
    breakevens_from_curve [⟨1, 5⟩, ⟨2, 0⟩] = [] ∧
    ¬ ((2 : ℚ) ∈ breakevens_from_curve [⟨1, 5⟩, ⟨2, 0⟩]) := by
  have h : breakevens_from_curve [⟨1, 5⟩, ⟨2, 0⟩] = [] := by
    norm_num [breakevens_from_curve, besRaw, dedupTol, List.insertionSort]
  refine ⟨rfl, h, by rw [h]; simp⟩

/-- C2 (amended): every sample point other than the final one whose pnl is
exactly 0.0 has a value within the dedup tolerance `1e-6` of its underlying
in the list returned by `breakevens_from_curve` (its underlying itself
whenever no other breakeven lies within `1e-6` of it). -/
theorem breakevens_report_zero_samples (curve : List PLPoint) (i : ℕ)
    (hi : i + 1 < curve.length) (hz : (curve.get ⟨i, by omega⟩).pnl = 0) :
    ∃ y ∈ breakevens_from_curve curve,
      |y - (curve.get ⟨i, by omega⟩).underlying| ≤ 1/1000000 := by
  have hlen : ¬ curve.length < 2 := by omega
  have hmem := besRaw_zero_mem curve i hi hz
  have hmem2 : (curve.get ⟨i, by omega⟩).underlying
      ∈ List.insertionSort (· ≤ ·) (besRaw curve) :=
    ((List.perm_insertionSort (· ≤ ·) (besRaw curve)).mem_iff).2 hmem
  obtain ⟨z, hzmem, hzd⟩ := dedupTol_cover _ _ hmem2
  refine ⟨z, ?_, ?_⟩
  · unfold breakevens_from_curve
    rw [if_neg hlen]
    exact hzmem
  · rw [abs_sub_comm]
    exact hzd

/-- Witness for C2 at the curve `[(1, 0), (2, 3)]`, zero at index 0. -/
theorem breakevens_report_zero_samples_witness :
    ∃ y ∈ breakevens_from_curve [⟨1, 0⟩, ⟨2, 3⟩],
      |y - (([⟨1, 0⟩, ⟨2, 3⟩] : List PLPoint).get ⟨0, by norm_num⟩).underlying| ≤ 1/1000000 :=
  breakevens_report_zero_samples [⟨1, 0⟩, ⟨2, 3⟩] 0 (by norm_num) rfl

/-! ## Implied-vol solver lemmas -/

theorem expandHigh_stop (f : ℚ → ℚ) (f_low vhi fhi : ℚ) (h : ¬ 0 < f_low * fhi) :
    ∀ fuel, expandHigh f f_low fuel vhi fhi = (vhi, fhi, 0) := by
  intro fuel
  cases fuel with
  | zero => rfl
  | succ n =>
    show (if 0 < f_low * fhi then _ else _) = _
    rw [if_neg h]

theorem expandHigh_spec (f : ℚ → ℚ) (f_low : ℚ) :
    ∀ (fuel : ℕ) (vhi fhi : ℚ), fhi = f vhi →
    (expandHigh f f_low fuel vhi fhi).2.2 ≤ fuel ∧
    (expandHigh f f_low fuel vhi fhi).1 = vhi * (3/2) ^ (expandHigh f f_low fuel vhi fhi).2.2 ∧
    (expandHigh f f_low fuel vhi fhi).2.1 = f (expandHigh f f_low fuel vhi fhi).1 ∧
    (0 < f_low * (expandHigh f f_low fuel vhi fhi).2.1 →
      (expandHigh f f_low fuel vhi fhi).2.2 = fuel) := by
  intro fuel
  induction fuel with
  | zero =>
    intro vhi fhi hf
    refine ⟨le_refl _, by simp [expandHigh], hf, fun _ => rfl⟩
  | succ n ih =>
    intro vhi fhi hf
    by_cases h : 0 < f_low * fhi
    · have heq : expandHigh f f_low (n + 1) vhi fhi =
          ((expandHigh f f_low n (vhi * (3/2)) (f (vhi * (3/2)))).1,
           (expandHigh f f_low n (vhi * (3/2)) (f (vhi * (3/2)))).2.1,
           (expandHigh f f_low n (vhi * (3/2)) (f (vhi * (3/2)))).2.2 + 1) := by
        show (if 0 < f_low * fhi then _ else _) = _
        rw [if_pos h]
      obtain ⟨h1, h2, h3, h4⟩ := ih (vhi * (3/2)) (f (vhi * (3/2))) rfl
      rw [heq]
      dsimp only
      refine ⟨by omega, ?_, h3, fun hp => by rw [h4 hp]⟩
      rw [h2, pow_succ]
      ring
    · rw [expandHigh_stop f f_low vhi fhi h (n + 1)]
      dsimp only
      exact ⟨by omega, by simp, hf, fun hp => absurd hp h⟩

theorem bisectLoop_stop_succ (f : ℚ → ℚ) (tol : ℚ) (fuel i : ℕ) (low high f_low : ℚ)
    (h : stopAt f tol (low, high, f_low)) :
    bisectLoop f tol (fuel + 1) i low high f_low = ⟨(low + high) / 2, i⟩ := by
  have h' : |f ((low + high) / 2)| < tol ∨ (high - low) / 2 < tol := h
  show (if |f ((low + high) / 2)| < tol ∨ (high - low) / 2 < tol then _ else _) = _
  rw [if_pos h']

theorem bisectLoop_go (f : ℚ → ℚ) (tol : ℚ) (fuel i : ℕ) (low high f_low : ℚ)
    (h : ¬ stopAt f tol (low, high, f_low)) :
    bisectLoop f tol (fuel + 1) i low high f_low
      = bisectLoop f tol fuel (i + 1) (bstep f (low, high, f_low)).1
          (bstep f (low, high, f_low)).2.1 (bstep f (low, high, f_low)).2.2 := by
  have h' : ¬ (|f ((low + high) / 2)| < tol ∨ (high - low) / 2 < tol) := h
  show (if |f ((low + high) / 2)| < tol ∨ (high - low) / 2 < tol then _ else _) = _
  rw [if_neg h']
  by_cases hc : f_low * f ((low + high) / 2) ≤ 0
  · have hb : bstep f (low, high, f_low) = (low, (low + high) / 2, f_low) := by
      show (if f_low * f ((low + high) / 2) ≤ 0 then _ else _) = _
      rw [if_pos hc]
    rw [if_pos hc, hb]
  · have hb : bstep f (low, high, f_low) = ((low + high) / 2, high, f ((low + high) / 2)) := by
      show (if f_low * f ((low + high) / 2) ≤ 0 then _ else _) = _
      rw [if_neg hc]
    rw [if_neg hc, hb]

theorem bisectLoop_first_hit (f : ℚ → ℚ) (tol : ℚ) :
    ∀ (fuel n₀ i : ℕ) (st : ℚ × ℚ × ℚ), n₀ < fuel →
    stopAt f tol ((bstep f)^[n₀] st) →
    (∀ m, m < n₀ → ¬ stopAt f tol ((bstep f)^[m] st)) →
    bisectLoop f tol fuel i st.1 st.2.1 st.2.2 = ⟨midOf ((bstep f)^[n₀] st), i + n₀⟩ := by
  intro fuel
  induction fuel with
  | zero => intro n₀ i st h; exact absurd h (Nat.not_lt_zero n₀)
  | succ n ih =>
    intro n₀ i st hlt hstop hmin
    obtain ⟨low, high, flo⟩ := st
    cases n₀ with
    | zero =>
      simp only [Function.iterate_zero, id_eq] at hstop ⊢
      rw [bisectLoop_stop_succ f tol n i low high flo hstop]
      rfl
    | succ m =>
      have h0 : ¬ stopAt f tol (low, high, flo) := by
        have := hmin 0 (by omega)
        simpa using this
      rw [bisectLoop_go f tol n i low high flo h0]
      have hrec := ih m (i + 1) (bstep f (low, high, flo)) (by omega)
        (by rw [← Function.iterate_succ_apply]; exact hstop)
        (by
          intro k hk
          rw [← Function.iterate_succ_apply]
          exact hmin (k + 1) (by omega))
      rw [hrec, ← Function.iterate_succ_apply]
      have : i + 1 + m = i + (m + 1) := by omega
      rw [this]

theorem bisectLoop_no_hit (f : ℚ → ℚ) (tol : ℚ) :
    ∀ (fuel i : ℕ) (st : ℚ × ℚ × ℚ),
    (∀ m, m < fuel → ¬ stopAt f tol ((bstep f)^[m] st)) →
    bisectLoop f tol fuel i st.1 st.2.1 st.2.2 = ⟨midOf ((bstep f)^[fuel] st), i + fuel - 1⟩ := by
  intro fuel
  induction fuel with
  | zero =>
    intro i st hm
    obtain ⟨low, high, flo⟩ := st
    rfl
  | succ n ih =>
    intro i st hm
    obtain ⟨low, high, flo⟩ := st
    have h0 : ¬ stopAt f tol (low, high, flo) := by
      have := hm 0 (by omega)
      simpa using this
    rw [bisectLoop_go f tol n i low high flo h0]
    have hrec := ih (i + 1) (bstep f (low, high, flo)) (by
      intro k hk
      rw [← Function.iterate_succ_apply]
      exact hm (k + 1) (by omega))
    rw [hrec, ← Function.iterate_succ_apply]
    have : i + 1 + n - 1 = i + (n + 1) - 1 := by omega
    rw [this]

theorem bisectLoop_bounds (f : ℚ → ℚ) (tol : ℚ) :
    ∀ (fuel i : ℕ) (low high f_low : ℚ), low ≤ high →
    low ≤ (bisectLoop f tol fuel i low high f_low).implied_vol ∧
    (bisectLoop f tol fuel i low high f_low).implied_vol ≤ high := by
  intro fuel
  induction fuel with
  | zero =>
    intro i low high f_low hle
    constructor <;> show _ ≤ _ <;> simp only [bisectLoop] <;> linarith
  | succ n ih =>
    intro i low high f_low hle
    by_cases hs : stopAt f tol (low, high, f_low)
    · rw [bisectLoop_stop_succ f tol n i low high f_low hs]
      constructor <;> show _ ≤ _ <;> simp only [] <;> linarith
    · rw [bisectLoop_go f tol n i low high f_low hs]
      by_cases hc : f_low * f ((low + high) / 2) ≤ 0
      · have hb : bstep f (low, high, f_low) = (low, (low + high) / 2, f_low) := by
          show (if f_low * f ((low + high) / 2) ≤ 0 then _ else _) = _
          rw [if_pos hc]
        rw [hb]
        have hm : low ≤ (low + high) / 2 := by linarith
        obtain ⟨hl, hr⟩ := ih (i + 1) low ((low + high) / 2) f_low hm
        exact ⟨hl, le_trans hr (by linarith)⟩
      · have hb : bstep f (low, high, f_low) = ((low + high) / 2, high, f ((low + high) / 2)) := by
          show (if f_low * f ((low + high) / 2) ≤ 0 then _ else _) = _
          rw [if_neg hc]
        rw [hb]
        have hm : (low + high) / 2 ≤ high := by linarith
        obtain ⟨hl, hr⟩ := ih (i + 1) ((low + high) / 2) high (f ((low + high) / 2)) hm
        exact ⟨le_trans (by linarith) hl, hr⟩

theorem implied_vol_unfold (call_price put_price : ℚ → ℚ) (market_price : ℚ)
    (option_type : String) (vol_low vol_high tol : ℚ) (max_iter : ℕ)
    (f : ℚ → ℚ) (f_low : ℚ) (r : ℚ × ℚ × ℕ)
    (hmp : 0 < market_price)
    (hot : pyStrip (pyLower option_type) = "call" ∨ pyStrip (pyLower option_type) = "put")
    (hf : f = ivf call_price put_price (pyStrip (pyLower option_type)) market_price)
    (hfl : f_low = f vol_low)
    (hr : r = expandHigh f f_low 20 vol_high (f vol_high)) :
    implied_vol_bisection call_price put_price market_price option_type vol_low vol_high tol max_iter
      = if 0 < f_low * r.2.1 then
          .error (.convergenceFailure "Could not bracket implied vol (market price out of model range).")
        else .ok (bisectLoop f tol max_iter 1 vol_low r.1 f_low) := by
  subst hf hfl hr
  have hot2 : ¬ (pyStrip (pyLower option_type) ≠ "call" ∧ pyStrip (pyLower option_type) ≠ "put") := by
    rcases hot with h | h <;> simp [h]
  unfold implied_vol_bisection
  rw [if_neg (not_le.2 hmp)]
  simp only [if_neg hot2]

/-! ## Claim C5 -/

/-- C5: when the bracket endpoints have the same sign, `implied_vol_bisection`
expands the high endpoint by a factor 1.5 at most 20 times (no expansion when
the signs already differ); if the endpoints still have the same strict sign
after the budget, it fails with `ConvergenceFailure` (all 20 expansions were
used), and otherwise it proceeds to bisection and returns its result. -/
theorem implied_vol_bracket_expansion (call_price put_price : ℚ → ℚ)
    (market_price : ℚ) (option_type : String) (vol_low vol_high tol : ℚ) (max_iter : ℕ)
    (f : ℚ → ℚ) (f_low : ℚ) (r : ℚ × ℚ × ℕ)
    (hmp : 0 < market_price)
    (hot : pyStrip (pyLower option_type) = "call" ∨ pyStrip (pyLower option_type) = "put")
    (hf : f = ivf call_price put_price (pyStrip (pyLower option_type)) market_price)
    (hfl : f_low = f vol_low)
    (hr : r = expandHigh f f_low 20 vol_high (f vol_high)) :
    (r.2.2 ≤ 20 ∧ r.1 = vol_high * (3/2) ^ r.2.2) ∧
    (f_low * f vol_high ≤ 0 → r = (vol_high, f vol_high, 0)) ∧
    (0 < f_low * r.2.1 → r.2.2 = 20 ∧
      implied_vol_bisection call_price put_price market_price option_type vol_low vol_high tol max_iter
        = .error (.convergenceFailure "Could not bracket implied vol (market price out of model range).")) ∧
    (f_low * r.2.1 ≤ 0 →
      implied_vol_bisection call_price put_price market_price option_type vol_low vol_high tol max_iter
        = .ok (bisectLoop f tol max_iter 1 vol_low r.1 f_low)) := by
  have hiv := implied_vol_unfold call_price put_price market_price option_type vol_low
    vol_high tol max_iter f f_low r hmp hot hf hfl hr
  have hspec := expandHigh_spec f f_low 20 vol_high (f vol_high) rfl
  rw [← hr] at hspec
  obtain ⟨h1, h2, h3, h4⟩ := hspec
  refine ⟨⟨h1, h2⟩, ?_, ?_, ?_⟩
  · intro hs
    rw [hr]
    exact expandHigh_stop f f_low vol_high (f vol_high) (not_lt.2 hs) 20
  · intro hs
    refine ⟨h4 hs, ?_⟩
    rw [hiv, if_pos hs]
  · intro hs
    rw [hiv, if_neg (not_lt.2 hs)]

/-- Witness for C5: the linear price curve `v - 1` (identity model price,
market price 1), standard bracket, no expansion needed. -/
theorem implied_vol_bracket_expansion_witness :
    (((5:ℚ), (4:ℚ), (0:ℕ)).2.2 ≤ 20 ∧
      (((5:ℚ), (4:ℚ), (0:ℕ)).1 : ℚ) = 5 * (3/2) ^ ((5:ℚ), (4:ℚ), (0:ℕ)).2.2) ∧
    (-(999999/1000000 : ℚ) * (fun v => v - 1) (5:ℚ) ≤ 0 →
      ((5:ℚ), (4:ℚ), (0:ℕ)) = (5, (fun v => v - 1) (5:ℚ), 0)) ∧
    (0 < -(999999/1000000 : ℚ) * ((5:ℚ), (4:ℚ), (0:ℕ)).2.1 →
      ((5:ℚ), (4:ℚ), (0:ℕ)).2.2 = 20 ∧
      implied_vol_bisection idPrice idPrice 1 "call" (1/1000000) 5 (1/1000000) 200
        = .error (.convergenceFailure "Could not bracket implied vol (market price out of model range).")) ∧
    (-(999999/1000000 : ℚ) * ((5:ℚ), (4:ℚ), (0:ℕ)).2.1 ≤ 0 →
      implied_vol_bisection idPrice idPrice 1 "call" (1/1000000) 5 (1/1000000) 200
        = .ok (bisectLoop (fun v => v - 1) (1/1000000) 200 1 (1/1000000)
            ((5:ℚ), (4:ℚ), (0:ℕ)).1 (-(999999/1000000 : ℚ)))) :=
  implied_vol_bracket_expansion idPrice idPrice 1 "call" (1/1000000) 5 (1/1000000) 200
    (fun v => v - 1) (-(999999/1000000)) ((5:ℚ), (4:ℚ), (0:ℕ))
    (by norm_num)
    (Or.inl (by decide))
    (by
      funext v
      have h : pyStrip (pyLower "call") = "call" := by decide
      simp [ivf, price_for, idPrice, h])
    (by norm_num)
    (by
      rw [expandHigh_stop (fun v => v - 1) (-(999999/1000000)) 5 ((fun v => v - 1) 5)
        (by norm_num) 20]
      norm_num)

/-! ## Claim C6 -/

/-- C6: once a bracket is established (the product of the bracket values is
not positive after expansion), `implied_vol_bisection` with `max_iter = 200`
never fails: it returns `(mid, i)` at the first iteration `i = n₀ + 1 ≤ 200`
whose midpoint meets `|f(mid)| < tol` or `(high - low)/2 < tol`, and if no
iteration meets the tolerance it returns the midpoint of the final interval
with `iterations = 200`. -/
theorem implied_vol_bisection_first_tolerance (call_price put_price : ℚ → ℚ)
    (market_price : ℚ) (option_type : String) (vol_low vol_high tol : ℚ)
    (f : ℚ → ℚ) (f_low : ℚ) (r : ℚ × ℚ × ℕ) (st : ℚ × ℚ × ℚ)
    (hmp : 0 < market_price)
    (hot : pyStrip (pyLower option_type) = "call" ∨ pyStrip (pyLower option_type) = "put")
    (hf : f = ivf call_price put_price (pyStrip (pyLower option_type)) market_price)
    (hfl : f_low = f vol_low)
    (hr : r = expandHigh f f_low 20 vol_high (f vol_high))
    (hst : st = (vol_low, r.1, f_low))
    (hbr : f_low * r.2.1 ≤ 0) :
    (∃ res, implied_vol_bisection call_price put_price market_price option_type
        vol_low vol_high tol 200 = .ok res) ∧
    (∀ n₀ : ℕ, n₀ < 200 → stopAt f tol ((bstep f)^[n₀] st) →
      (∀ m, m < n₀ → ¬ stopAt f tol ((bstep f)^[m] st)) →
      implied_vol_bisection call_price put_price market_price option_type
          vol_low vol_high tol 200
        = .ok ⟨midOf ((bstep f)^[n₀] st), n₀ + 1⟩) ∧
    ((∀ m, m < 200 → ¬ stopAt f tol ((bstep f)^[m] st)) →
      implied_vol_bisection call_price put_price market_price option_type
          vol_low vol_high tol 200
        = .ok ⟨midOf ((bstep f)^[200] st), 200⟩) := by
  have hiv := implied_vol_unfold call_price put_price market_price option_type vol_low
    vol_high tol 200 f f_low r hmp hot hf hfl hr
  rw [if_neg (not_lt.2 hbr)] at hiv
  have hst1 : st.1 = vol_low := by rw [hst]
  have hst2 : st.2.1 = r.1 := by rw [hst]
  have hst3 : st.2.2 = f_low := by rw [hst]
  refine ⟨⟨_, hiv⟩, ?_, ?_⟩
  · intro n₀ hn hstop hmin
    rw [hiv]
    have hbl := bisectLoop_first_hit f tol 200 n₀ 1 st hn hstop hmin
    rw [hst1, hst2, hst3] at hbl
    rw [hbl, Nat.add_comm 1 n₀]
  · intro hnone
    rw [hiv]
    have hbl := bisectLoop_no_hit f tol 200 1 st hnone
    rw [hst1, hst2, hst3] at hbl
    rw [hbl]

/-- Witness for C6: linear price curve `v - 1`, market price 1, bracket
`[1e-6, 5]`. -/
theorem implied_vol_bisection_first_tolerance_witness :
    (∃ res, implied_vol_bisection idPrice idPrice 1 "call" (1/1000000) 5 (1/1000000) 200
        = .ok res) ∧
    (∀ n₀ : ℕ, n₀ < 200 →
      stopAt (fun v => v - 1) (1/1000000)
        ((bstep (fun v => v - 1))^[n₀] ((1/1000000 : ℚ), (5 : ℚ), (-(999999/1000000) : ℚ))) →
      (∀ m, m < n₀ → ¬ stopAt (fun v => v - 1) (1/1000000)
        ((bstep (fun v => v - 1))^[m] ((1/1000000 : ℚ), (5 : ℚ), (-(999999/1000000) : ℚ)))) →
      implied_vol_bisection idPrice idPrice 1 "call" (1/1000000) 5 (1/1000000) 200
        = .ok ⟨midOf ((bstep (fun v => v - 1))^[n₀]
            ((1/1000000 : ℚ), (5 : ℚ), (-(999999/1000000) : ℚ))), n₀ + 1⟩) ∧
    ((∀ m, m < 200 → ¬ stopAt (fun v => v - 1) (1/1000000)
        ((bstep (fun v => v - 1))^[m] ((1/1000000 : ℚ), (5 : ℚ), (-(999999/1000000) : ℚ)))) →
      implied_vol_bisection idPrice idPrice 1 "call" (1/1000000) 5 (1/1000000) 200
        = .ok ⟨midOf ((bstep (fun v => v - 1))^[200]
            ((1/1000000 : ℚ), (5 : ℚ), (-(999999/1000000) : ℚ))), 200⟩) :=
  implied_vol_bisection_first_tolerance idPrice idPrice 1 "call" (1/1000000) 5 (1/1000000)
    (fun v => v - 1) (-(999999/1000000)) ((5:ℚ), (4:ℚ), (0:ℕ))
    ((1/1000000 : ℚ), (5 : ℚ), (-(999999/1000000) : ℚ))
    (by norm_num)
    (Or.inl (by decide))
    (by
      funext v
      have h : pyStrip (pyLower "call") = "call" := by decide
      simp [ivf, price_for, idPrice, h])
    (by norm_num)
    (by
      rw [expandHigh_stop (fun v => v - 1) (-(999999/1000000)) 5 ((fun v => v - 1) 5)
        (by norm_num) 20]
      norm_num)
    rfl
    (by norm_num)

/-! ## Claim C9 -/

/-- C9: whenever `implied_vol_bisection` returns a result, the implied vol
lies inside the bracketing interval: `vol_low ≤ implied_vol ≤
vol_high * 1.5 ^ 20` (hence strictly positive for a positive `vol_low`, as
with the defaults), and one bisection step always keeps
`low ≤ mid ≤ high` and shrinks the interval within its bounds. -/
theorem implied_vol_within_bracket (call_price put_price : ℚ → ℚ) (market_price : ℚ)
    (option_type : String) (vol_low vol_high tol : ℚ) (max_iter : ℕ) (res : IVResult)
    (hlo : 0 < vol_low) (hle : vol_low ≤ vol_high)
    (hok : implied_vol_bisection call_price put_price market_price option_type
      vol_low vol_high tol max_iter = .ok res) :
    (vol_low ≤ res.implied_vol ∧ res.implied_vol ≤ vol_high * (3/2) ^ 20 ∧
      0 < res.implied_vol) ∧
    (∀ (g : ℚ → ℚ) (low high flo : ℚ), low ≤ high →
      low ≤ midOf (low, high, flo) ∧ midOf (low, high, flo) ≤ high ∧
      low ≤ (bstep g (low, high, flo)).1 ∧ (bstep g (low, high, flo)).2.1 ≤ high ∧
      (bstep g (low, high, flo)).1 ≤ (bstep g (low, high, flo)).2.1) := by
  constructor
  · have hmp : 0 < market_price := by
      by_contra h
      unfold implied_vol_bisection at hok
      rw [if_pos (not_lt.1 h)] at hok
      exact Except.noConfusion hok
    have hot : pyStrip (pyLower option_type) = "call" ∨
        pyStrip (pyLower option_type) = "put" := by
      by_contra h
      push_neg at h
      unfold implied_vol_bisection at hok
      rw [if_neg (not_le.2 hmp)] at hok
      simp only [ne_eq, if_pos (by exact ⟨h.1, h.2⟩ :
        pyStrip (pyLower option_type) ≠ "call" ∧ pyStrip (pyLower option_type) ≠ "put")] at hok
      exact Except.noConfusion hok
    have hiv := implied_vol_unfold call_price put_price market_price option_type vol_low
      vol_high tol max_iter
      (ivf call_price put_price (pyStrip (pyLower option_type)) market_price)
      (ivf call_price put_price (pyStrip (pyLower option_type)) market_price vol_low)
      (expandHigh (ivf call_price put_price (pyStrip (pyLower option_type)) market_price)
        (ivf call_price put_price (pyStrip (pyLower option_type)) market_price vol_low)
        20 vol_high
        (ivf call_price put_price (pyStrip (pyLower option_type)) market_price vol_high))
      hmp hot rfl rfl rfl
    rw [hiv] at hok
    by_cases hb : 0 <
        ivf call_price put_price (pyStrip (pyLower option_type)) market_price vol_low *
        (expandHigh (ivf call_price put_price (pyStrip (pyLower option_type)) market_price)
          (ivf call_price put_price (pyStrip (pyLower option_type)) market_price vol_low)
          20 vol_high
          (ivf call_price put_price (pyStrip (pyLower option_type)) market_price vol_high)).2.1
    · rw [if_pos hb] at hok
      exact Except.noConfusion hok
    · rw [if_neg hb] at hok
      have hres : res = bisectLoop
          (ivf call_price put_price (pyStrip (pyLower option_type)) market_price) tol
          max_iter 1 vol_low
          (expandHigh (ivf call_price put_price (pyStrip (pyLower option_type)) market_price)
            (ivf call_price put_price (pyStrip (pyLower option_type)) market_price vol_low)
            20 vol_high
            (ivf call_price put_price (pyStrip (pyLower option_type)) market_price vol_high)).1
          (ivf call_price put_price (pyStrip (pyLower option_type)) market_price vol_low) := by
        injection hok with h
        exact h.symm
      obtain ⟨hk, hv, _, _⟩ := expandHigh_spec
        (ivf call_price put_price (pyStrip (pyLower option_type)) market_price)
        (ivf call_price put_price (pyStrip (pyLower option_type)) market_price vol_low)
        20 vol_high
        (ivf call_price put_price (pyStrip (pyLower option_type)) market_price vol_high) rfl
      have hv0 : (0 : ℚ) < vol_high := lt_of_lt_of_le hlo hle
      have hpow1 : (1 : ℚ) ≤ (3/2) ^ (expandHigh
          (ivf call_price put_price (pyStrip (pyLower option_type)) market_price)
          (ivf call_price put_price (pyStrip (pyLower option_type)) market_price vol_low)
          20 vol_high
          (ivf call_price put_price (pyStrip (pyLower option_type)) market_price vol_high)).2.2 :=
        one_le_pow₀ (by norm_num)
      have hr1 : vol_low ≤ (expandHigh
          (ivf call_price put_price (pyStrip (pyLower option_type)) market_price)
          (ivf call_price put_price (pyStrip (pyLower option_type)) market_price vol_low)
          20 vol_high
          (ivf call_price put_price (pyStrip (pyLower option_type)) market_price vol_high)).1 := by
        rw [hv]
        exact hle.trans (le_mul_of_one_le_right hv0.le hpow1)
      have hub : (expandHigh
          (ivf call_price put_price (pyStrip (pyLower option_type)) market_price)
          (ivf call_price put_price (pyStrip (pyLower option_type)) market_price vol_low)
          20 vol_high
          (ivf call_price put_price (pyStrip (pyLower option_type)) market_price vol_high)).1
          ≤ vol_high * (3/2) ^ 20 := by
        rw [hv]
        exact mul_le_mul_of_nonneg_left (pow_le_pow_right₀ (by norm_num) hk) hv0.le
      obtain ⟨hbl, hbu⟩ := bisectLoop_bounds
        (ivf call_price put_price (pyStrip (pyLower option_type)) market_price) tol
        max_iter 1 vol_low _
        (ivf call_price put_price (pyStrip (pyLower option_type)) market_price vol_low) hr1
      rw [hres]
      exact ⟨hbl, hbu.trans hub, lt_of_lt_of_le hlo hbl⟩
  · intro g low high flo hlh
    have hm1 : low ≤ midOf (low, high, flo) := by
      show low ≤ (low + high) / 2
      linarith
    have hm2 : midOf (low, high, flo) ≤ high := by
      show (low + high) / 2 ≤ high
      linarith
    by_cases hc : flo * g ((low + high) / 2) ≤ 0
    · have hb : bstep g (low, high, flo) = (low, (low + high) / 2, flo) := by
        show (if flo * g ((low + high) / 2) ≤ 0 then _ else _) = _
        rw [if_pos hc]
      rw [hb]
      exact ⟨hm1, hm2, le_refl low, by show (low + high)/2 ≤ high; linarith,
        by show low ≤ (low + high)/2; linarith⟩
    · have hb : bstep g (low, high, flo) = ((low + high) / 2, high, g ((low + high) / 2)) := by
        show (if flo * g ((low + high) / 2) ≤ 0 then _ else _) = _
        rw [if_neg hc]
      rw [hb]
      exact ⟨hm1, hm2, by show low ≤ (low + high)/2; linarith, le_refl high,
        by show (low + high)/2 ≤ high; linarith⟩

/-- Witness for C9: linear price curve, `max_iter = 0`, so the solver
returns the midpoint of the bracket at once. -/
theorem implied_vol_within_bracket_witness :
    ((1/1000000 : ℚ) ≤ (⟨(1/1000000 + 5) / 2, 0⟩ : IVResult).implied_vol ∧
      (⟨(1/1000000 + 5) / 2, 0⟩ : IVResult).implied_vol ≤ 5 * (3/2) ^ 20 ∧
      0 < (⟨(1/1000000 + 5) / 2, 0⟩ : IVResult).implied_vol) ∧
    (∀ (g : ℚ → ℚ) (low high flo : ℚ), low ≤ high →
      low ≤ midOf (low, high, flo) ∧ midOf (low, high, flo) ≤ high ∧
      low ≤ (bstep g (low, high, flo)).1 ∧ (bstep g (low, high, flo)).2.1 ≤ high ∧
      (bstep g (low, high, flo)).1 ≤ (bstep g (low, high, flo)).2.1) :=
  implied_vol_within_bracket idPrice idPrice 1 "call" (1/1000000) 5 (1/1000000) 0
    ⟨(1/1000000 + 5) / 2, 0⟩ (by norm_num) (by norm_num)
    (by
      have hiv := implied_vol_unfold idPrice idPrice 1 "call" (1/1000000) 5 (1/1000000) 0
        (fun v => v - 1) (-(999999/1000000)) ((5:ℚ), (4:ℚ), (0:ℕ))
        (by norm_num)
        (Or.inl (by decide))
        (by
          funext v
          have h : pyStrip (pyLower "call") = "call" := by decide
          simp [ivf, price_for, idPrice, h])
        (by norm_num)
        (by
          rw [expandHigh_stop (fun v => v - 1) (-(999999/1000000)) 5 ((fun v => v - 1) 5)
            (by norm_num) 20]
          norm_num)
      rw [hiv, if_neg (by norm_num)]
      rfl)

/-! ## Claim C7 -/

theorem rhe_add_of_even_sum (A B : ℚ) (m : ℤ) (hAB : A + B = ((2 * m : ℤ) : ℚ)) :
    ((rhe A : ℚ)) + ((rhe B : ℚ)) = A + B := by
  have hA0 : (⌊A⌋ : ℚ) ≤ A := Int.floor_le A
  have hA1 : A < (⌊A⌋ : ℚ) + 1 := Int.lt_floor_add_one A
  have hB0 : (⌊B⌋ : ℚ) ≤ B := Int.floor_le B
  have hB1 : B < (⌊B⌋ : ℚ) + 1 := Int.lt_floor_add_one B
  push_cast at hAB
  have hk01 : 2 * m - ⌊A⌋ - ⌊B⌋ = 0 ∨ 2 * m - ⌊A⌋ - ⌊B⌋ = 1 := by
    have h0 : (0 : ℚ) ≤ 2 * (m : ℚ) - (⌊A⌋ : ℚ) - (⌊B⌋ : ℚ) := by linarith
    have h2 : 2 * (m : ℚ) - (⌊A⌋ : ℚ) - (⌊B⌋ : ℚ) < 2 := by linarith
    have h0' : (0 : ℤ) ≤ 2 * m - ⌊A⌋ - ⌊B⌋ := by exact_mod_cast h0
    have h2' : 2 * m - ⌊A⌋ - ⌊B⌋ < 2 := by exact_mod_cast h2
    omega
  rw [rhe_def, rhe_def]
  rcases hk01 with hk | hk
  · have hfl : (⌊A⌋ : ℚ) + (⌊B⌋ : ℚ) = A + B := by
      have h' : (⌊A⌋ : ℚ) + (⌊B⌋ : ℚ) = 2 * (m : ℚ) := by
        exact_mod_cast (by omega : ⌊A⌋ + ⌊B⌋ = 2 * m)
      linarith
    have hfa : A - (⌊A⌋ : ℚ) = 0 := by linarith
    have hfb : B - (⌊B⌋ : ℚ) = 0 := by linarith
    rw [if_pos (by rw [hfa]; norm_num), if_pos (by rw [hfb]; norm_num)]
    exact hfl
  · have hfl : (⌊A⌋ : ℚ) + (⌊B⌋ : ℚ) = A + B - 1 := by
      have h' : (⌊A⌋ : ℚ) + (⌊B⌋ : ℚ) = 2 * (m : ℚ) - 1 := by
        exact_mod_cast (by omega : ⌊A⌋ + ⌊B⌋ = 2 * m - 1)
      linarith
    rcases lt_trichotomy (A - (⌊A⌋ : ℚ)) (1/2) with hfa | hfa | hfa
    · have hfb : 1/2 < B - (⌊B⌋ : ℚ) := by linarith
      rw [if_pos hfa, if_neg (show ¬ (B - (⌊B⌋ : ℚ) < 1/2) by linarith), if_pos hfb]
      push_cast
      linarith
    · have hfb : B - (⌊B⌋ : ℚ) = 1/2 := by linarith
      rw [if_neg (show ¬ (A - (⌊A⌋ : ℚ) < 1/2) by linarith),
        if_neg (show ¬ (1/2 < A - (⌊A⌋ : ℚ)) by linarith),
        if_neg (show ¬ (B - (⌊B⌋ : ℚ) < 1/2) by linarith),
        if_neg (show ¬ (1/2 < B - (⌊B⌋ : ℚ)) by linarith)]
      have hfloor : ⌊A⌋ + ⌊B⌋ = 2 * m - 1 := by
        have h' : ((⌊A⌋ : ℚ)) + ((⌊B⌋ : ℚ)) = 2 * (m : ℚ) - 1 := by linarith
        exact_mod_cast h'
      by_cases hpa : ⌊A⌋ % 2 = 0
      · rw [if_pos hpa, if_neg (show ¬ ⌊B⌋ % 2 = 0 by omega)]
        push_cast
        linarith
      · rw [if_neg hpa, if_pos (show ⌊B⌋ % 2 = 0 by omega)]
        push_cast
        linarith
    · have hfb : B - (⌊B⌋ : ℚ) < 1/2 := by linarith
      rw [if_neg (show ¬ (A - (⌊A⌋ : ℚ) < 1/2) by linarith), if_pos hfa, if_pos hfb]
      push_cast
      linarith

theorem roundTo_two_add (a b : ℚ) (z : ℤ) (hab : a + b = (z : ℚ)) :
    roundTo 2 a + roundTo 2 b = a + b := by
  unfold roundTo
  have h := rhe_add_of_even_sum (a * 10 ^ 2) (b * 10 ^ 2) (50 * z) (by
    push_cast
    rw [show a * 10 ^ 2 + b * 10 ^ 2 = (a + b) * 100 by ring, hab]
    ring)
  rw [div_add_div_same, h]
  rw [show a * 10 ^ 2 + b * 10 ^ 2 = (a + b) * 100 by ring]
  rw [show ((10 : ℚ) ^ 2) = 100 by norm_num]
  field_simp

theorem roundTo_nonneg {x : ℚ} (hx : 0 ≤ x) (d : ℕ) : 0 ≤ roundTo d x := by
  unfold roundTo
  apply div_nonneg
  · exact_mod_cast rhe_nonneg (by positivity)
  · positivity

/-- C7: for every bull-put credit-spread candidate produced by
`ev_bull_put_credit` (positive width, `0 < credit < width`, a positive
contract count and a whole-cent spread value `width * 100 * contracts`, as
the recommender always produces), the reported `max_profit` plus the
magnitude of the reported `max_loss` equals `width * 100 * contracts`. -/
theorem bull_put_credit_complement (sims : List ℚ) (S0 Kshort Klong credit iv : ℚ)
    (dte contracts : ℤ) (var_alpha : ℚ)
    (hw : 0 < Kshort - Klong) (hc : 0 < credit) (hcw : credit < Kshort - Klong)
    (hcon : 0 < contracts)
    (hz : ∃ z : ℤ, (Kshort - Klong) * 100 * (contracts : ℚ) = (z : ℚ)) :
    ∃ mp ml : ℚ,
      (ev_bull_put_credit sims S0 Kshort Klong credit iv dte contracts var_alpha).max_profit
        = some (.val mp) ∧
      (ev_bull_put_credit sims S0 Kshort Klong credit iv dte contracts var_alpha).max_loss
        = some ml ∧
      mp + |ml| = (Kshort - Klong) * 100 * (contracts : ℚ) := by
  obtain ⟨z, hzeq⟩ := hz
  have hwidth : max (0 : ℚ) (Kshort - Klong) = Kshort - Klong := max_eq_right hw.le
  have hguard : ¬ (max (0 : ℚ) (Kshort - Klong) ≤ 0 ∨ credit ≤ 0 ∨
      max (0 : ℚ) (Kshort - Klong) ≤ credit) := by
    rw [hwidth]
    push_neg
    exact ⟨hw, hc, hcw⟩
  refine ⟨roundTo 2 (credit * 100 * (contracts : ℚ)),
    roundTo 2 ((max 0 (Kshort - Klong) - credit) * 100 * (contracts : ℚ)), ?_, ?_, ?_⟩
  · unfold ev_bull_put_credit
    rw [if_neg hguard]
  · unfold ev_bull_put_credit
    rw [if_neg hguard]
  · have hcon' : (0 : ℚ) < (contracts : ℚ) := by exact_mod_cast hcon
    have hml0 : (0 : ℚ) ≤ (max 0 (Kshort - Klong) - credit) * 100 * (contracts : ℚ) := by
      rw [hwidth]
      have : (0 : ℚ) ≤ Kshort - Klong - credit := by linarith
      positivity
    rw [abs_of_nonneg (roundTo_nonneg hml0 2)]
    have hsum : credit * 100 * (contracts : ℚ) +
        (max 0 (Kshort - Klong) - credit) * 100 * (contracts : ℚ) = (z : ℚ) := by
      rw [hwidth, ← hzeq]
      ring
    rw [roundTo_two_add _ _ z hsum, hsum, hzeq]

/-- Witness for C7 at a 5-wide spread, credit 1.5, one contract. -/
theorem bull_put_credit_complement_witness :
    ∃ mp ml : ℚ,
      (ev_bull_put_credit [100] 100 100 95 (3/2) (2/10) 30 1 (95/100)).max_profit
        = some (.val mp) ∧
      (ev_bull_put_credit [100] 100 100 95 (3/2) (2/10) 30 1 (95/100)).max_loss
        = some ml ∧
      mp + |ml| = ((100 : ℚ) - 95) * 100 * ((1 : ℤ) : ℚ) :=
  bull_put_credit_complement [100] 100 100 95 (3/2) (2/10) 30 1 (95/100)
    (by norm_num) (by norm_num) (by norm_num) (by norm_num) ⟨500, by norm_num⟩

/-! ## Claim C4 -/

theorem norm_cdf_add_neg (erf : ℝ → ℝ) (herf : ∀ x, erf (-x) = -erf x) (x : ℝ) :
    _norm_cdf erf x + _norm_cdf erf (-x) = 1 := by
  unfold _norm_cdf
  rw [neg_div, herf]
  ring

/-- C4: for every `S, K, T, sigma > 0` and any `r`, `q`, `black_scholes`
succeeds and its prices satisfy put-call parity
`call - put = S * exp(-qT) - K * exp(-rT)` exactly, given only that the
injected `erf` is an odd function (which the true error function is). -/
theorem black_scholes_put_call_parity (erf : ℝ → ℝ) (herf : ∀ x, erf (-x) = -erf x)
    (S K T r q sigma : ℝ) (hS : 0 < S) (hK : 0 < K) (hT : 0 < T) (hsigma : 0 < sigma) :
    ∃ res, black_scholes erf S K T r q sigma = .ok res ∧
      res.call_price - res.put_price = S * Real.exp (-q * T) - K * Real.exp (-r * T) := by
  have h1 : ¬ (S ≤ 0 ∨ K ≤ 0) := by push_neg; exact ⟨hS, hK⟩
  have h2 : ¬ T ≤ 0 := not_le.2 hT
  have h3 : ¬ sigma ≤ 0 := not_le.2 hsigma
  refine ⟨bsCore erf S K T r q sigma, ?_, ?_⟩
  · unfold black_scholes
    rw [if_neg h1, if_neg h2, if_neg h3]
  · have hc1 := norm_cdf_add_neg erf herf
      ((Real.log (S / K) + (r - q + (1/2) * sigma * sigma) * T) / (sigma * Real.sqrt T))
    have hc2 := norm_cdf_add_neg erf herf
      ((Real.log (S / K) + (r - q + (1/2) * sigma * sigma) * T) / (sigma * Real.sqrt T)
        - sigma * Real.sqrt T)
    unfold bsCore
    dsimp only
    linear_combination S * Real.exp (-q * T) * hc1 - K * Real.exp (-r * T) * hc2

/-- Witness for C4 with the odd function `erf = 0` at
`S = K = T = sigma = 1`, `r = q = 0`. -/
theorem black_scholes_put_call_parity_witness :
    ∃ res, black_scholes (fun _ => 0) 1 1 1 0 0 1 = .ok res ∧
      res.call_price - res.put_price
        = 1 * Real.exp (-(0 : ℝ) * 1) - 1 * Real.exp (-(0 : ℝ) * 1) :=
  black_scholes_put_call_parity (fun _ => 0) (fun x => by simp) 1 1 1 0 0 1
    one_pos one_pos one_pos one_pos

/-! ## Python max over candidates : first maximal element -/

theorem pyMax1_decomp {α : Type} (key : α → ℚ) :
    ∀ (xs : List α) (x : α), ∃ l1 l2, x :: xs = l1 ++ pyMax1 key x xs :: l2 ∧
      (∀ c ∈ l1, key c < key (pyMax1 key x xs)) ∧
      (∀ c ∈ l2, key c ≤ key (pyMax1 key x xs)) := by
  intro xs
  induction xs with
  | nil =>
    intro x
    exact ⟨[], [], rfl, by simp, by simp⟩
  | cons y ys ih =>
    intro x
    have hstep : pyMax1 key x (y :: ys) = pyMax1 key (if key x < key y then y else x) ys := rfl
    by_cases h : key x < key y
    · rw [hstep, if_pos h]
      obtain ⟨l1, l2, heq, hl1, hl2⟩ := ih y
      refine ⟨x :: l1, l2, ?_, ?_, hl2⟩
      · rw [List.cons_append, ← heq]
      · intro c hc
        rcases List.mem_cons.1 hc with rfl | hc
        · have hy : key y ≤ key (pyMax1 key y ys) := by
            rcases l1 with _ | ⟨a, t⟩
            · have hhead : y = pyMax1 key y ys := by
                have h' := heq
                rw [List.nil_append] at h'
                exact (List.cons_eq_cons.1 h').1
              rw [← hhead]
            · have hhead : y = a := by
                rw [List.cons_append] at heq
                exact (List.cons_eq_cons.1 heq).1
              have h' := (hl1 a (List.mem_cons_self a t)).le
              rw [← hhead] at h'
              exact h'
          exact lt_of_lt_of_le h hy
        · exact hl1 c hc
    · rw [hstep, if_neg h]
      have hxy : key y ≤ key x := le_of_not_lt h
      obtain ⟨l1, l2, heq, hl1, hl2⟩ := ih x
      rcases l1 with _ | ⟨a, t⟩
      · rw [List.nil_append] at heq
        have hx : x = pyMax1 key x ys := (List.cons_eq_cons.1 heq).1
        have hl2' : ys = l2 := (List.cons_eq_cons.1 heq).2
        refine ⟨[], y :: l2, ?_, by simp, ?_⟩
        · rw [List.nil_append, ← hx, ← hl2']
        · intro c hc
          rcases List.mem_cons.1 hc with rfl | hc
          · rw [← hx]
            exact hxy
          · exact hl2 c hc
      · rw [List.cons_append] at heq
        have hx : x = a := (List.cons_eq_cons.1 heq).1
        have hys : ys = t ++ pyMax1 key x ys :: l2 := (List.cons_eq_cons.1 heq).2
        have hxmax : key x < key (pyMax1 key x ys) := by
          have h' := hl1 a (List.mem_cons_self a t)
          rw [← hx] at h'
          exact h'
        refine ⟨x :: y :: t, l2, ?_, ?_, hl2⟩
        · rw [List.cons_append, List.cons_append, ← hys]
        · intro c hc
          rcases List.mem_cons.1 hc with rfl | hc
          · exact hxmax
          rcases List.mem_cons.1 hc with rfl | hc
          · exact lt_of_le_of_lt hxy hxmax
          · exact hl1 c (List.mem_cons_of_mem a hc)

/-! ## Recommender evaluation helpers -/

theorem rhe_intCast (n : ℤ) : rhe ((n : ℚ)) = n := by
  rw [rhe_def, Int.floor_intCast]
  norm_num

theorem roundTo_int (d : ℕ) (x : ℚ) (n : ℤ) (h : x * 10 ^ d = (n : ℚ)) : roundTo d x = x := by
  unfold roundTo
  rw [h, rhe_intCast, ← h]
  field_simp

/-- What `pick_best_strategy` returns once its `use` list is known to be the
non-empty `x :: xs`. -/
theorem pick_best_eval_use (args : RecArgs) (chain : Chain) (simss : ℕ → List ℚ)
    (x : Candidate) (xs : List Candidate)
    (huse : (if ((genCandidates args chain simss).filter (passesConstraints args)).isEmpty
             then genCandidates args chain simss
             else (genCandidates args chain simss).filter (passesConstraints args)) = x :: xs) :
    pick_best_strategy args chain simss =
      { symbol := args.symbol, spot := roundTo 2 args.spot, dte := args.dte,
        contracts := args.contracts,
        constraints := some ⟨args.max_loss_dollars, args.max_drawdown_dollars,
          args.var_alpha, args.min_expected_profit, args.min_prob_profit,
          args.min_reward_risk, args.min_oi, args.min_vol, args.max_spread_pct,
          args.allow_single_call, args.allow_bull_put⟩,
        recommendation := some (finalizeBest (pyMax1 score_candidate x xs)),
        note := "Max drawdown implemented as VaR-style worst-tail loss over the simulated P&L distribution (not multi-step equity curve drawdown)." } := by
  simp only [pick_best_strategy]
  rw [huse]

theorem wCand_expected_profit : wCand.expected_profit = some (-500) := by
  have h0 : wCand.expected_profit = some (roundTo 2
      ((List.map (fun s : ℚ => max (s - 100) 0 - 5) [100]).sum
        / ((List.map (fun s : ℚ => max (s - 100) 0 - 5) [100]).length : ℚ)
        * 100 * ((1 : ℤ) : ℚ))) := rfl
  rw [h0]
  have h1 : (List.map (fun s : ℚ => max (s - 100) 0 - 5) [100]).sum
      / ((List.map (fun s : ℚ => max (s - 100) 0 - 5) [100]).length : ℚ)
      * 100 * ((1 : ℤ) : ℚ) = -500 := by
    norm_num
  rw [h1, roundTo_int 2 (-500 : ℚ) (-50000) (by norm_num)]

theorem wCand_prob_profit : wCand.prob_profit = some 0 := by
  have h0 : wCand.prob_profit = some (roundTo 4
      (_pop (List.map (fun s : ℚ => max (s - 100) 0 - 5) [100]))) := rfl
  rw [h0]
  have hps : List.map (fun s : ℚ => max (s - 100) 0 - 5) [100] = [-5] := by
    norm_num
  rw [hps]
  have h1 : _pop [(-5 : ℚ)] = 0 := by
    unfold _pop
    norm_num
  rw [h1, roundTo_int 4 (0 : ℚ) 0 (by norm_num)]

theorem wCand_reward_risk : wCand.reward_risk = some 999999 := rfl

theorem wCand_max_loss : wCand.max_loss = some 500 := by
  have h0 : wCand.max_loss = some (roundTo 2 (5 * 100 * ((1 : ℤ) : ℚ))) := rfl
  rw [h0]
  have h1 : (5 : ℚ) * 100 * ((1 : ℤ) : ℚ) = 500 := by norm_num
  rw [h1, roundTo_int 2 (500 : ℚ) 50000 (by norm_num)]

theorem wCand_var_worst_loss : wCand.var_worst_loss = some 500 := by
  have h0 : wCand.var_worst_loss = some (roundTo 2
      (_var_worst_loss_dollars (List.map (fun s : ℚ => max (s - 100) 0 - 5) [100])
        (95/100) 1)) := rfl
  rw [h0]
  have hps : List.map (fun s : ℚ => max (s - 100) 0 - 5) [100] = [-5] := by
    norm_num
  rw [hps]
  have h1 : _var_worst_loss_dollars [(-5 : ℚ)] (95/100) 1 = 500 := by
    unfold _var_worst_loss_dollars
    norm_num [List.insertionSort, List.orderedInsert, max_def, min_def]
  rw [h1, roundTo_int 2 (500 : ℚ) 50000 (by norm_num)]

theorem wCand_pass_w3 : passesConstraints w3Args wCand = true := by
  unfold passesConstraints
  rw [wCand_expected_profit, wCand_prob_profit, wCand_reward_risk, wCand_var_worst_loss,
    wCand_max_loss]
  norm_num [w3Args]

theorem wCand_fail_w1 : passesConstraints w1Args wCand = false := by
  unfold passesConstraints
  rw [wCand_expected_profit, wCand_prob_profit, wCand_reward_risk, wCand_var_worst_loss,
    wCand_max_loss]
  norm_num [w1Args]

theorem w1_gen : genCandidates w1Args w3Chain wSimss = [wCand] := rfl

theorem w3_gen : genCandidates w3Args w3Chain wSimss = [wCand] := rfl

theorem w1_filter_empty :
    (genCandidates w1Args w3Chain wSimss).filter (passesConstraints w1Args) = [] := by
  rw [w1_gen, List.filter_cons, wCand_fail_w1]
  simp

/-! ## Claim C1 -/

/-- C1 (amended): if constraint filtering leaves zero candidates but
candidate generation produced at least one, `pick_best_strategy` falls back
to scoring the full unfiltered candidate set; the payload it returns in this
fallback case is the normal recommendation payload, which contains no
diagnostic `error` field (the `error` payload is returned only when
generation itself produced no candidates). -/
theorem pick_best_fallback (args : RecArgs) (chain : Chain) (simss : ℕ → List ℚ)
    (x : Candidate) (xs : List Candidate)
    (hgen : genCandidates args chain simss = x :: xs)
    (hfil : (genCandidates args chain simss).filter (passesConstraints args) = []) :
    (pick_best_strategy args chain simss).error = none ∧
    (pick_best_strategy args chain simss).recommendation
      = some (finalizeBest (pyMax1 score_candidate x xs)) := by
  have huse : (if ((genCandidates args chain simss).filter (passesConstraints args)).isEmpty
      then genCandidates args chain simss
      else (genCandidates args chain simss).filter (passesConstraints args)) = x :: xs := by
    rw [hfil]
    simpa using hgen
  rw [pick_best_eval_use args chain simss x xs huse]
  exact ⟨rfl, rfl⟩

/-- Counterexample for C1 as frozen: a fallback case (candidates generated,
all filtered out) whose returned payload has `error = none` — the diagnostic
`error` field is absent in the fallback payload. -/
theorem pick_best_fallback_no_error_field :
    genCandidates w1Args w3Chain wSimss ≠ [] ∧
    (genCandidates w1Args w3Chain wSimss).filter (passesConstraints w1Args) = [] ∧
    (pick_best_strategy w1Args w3Chain wSimss).error = none := by
  refine ⟨by rw [w1_gen]; simp, w1_filter_empty, ?_⟩
  have huse : (if ((genCandidates w1Args w3Chain wSimss).filter
        (passesConstraints w1Args)).isEmpty
      then genCandidates w1Args w3Chain wSimss
      else (genCandidates w1Args w3Chain wSimss).filter (passesConstraints w1Args))
      = wCand :: [] := by
    rw [w1_filter_empty]
    simpa using w1_gen
  rw [pick_best_eval_use w1Args w3Chain wSimss wCand [] huse]

/-- Witness for C1 (amended) at the one-candidate fixture. -/
theorem pick_best_fallback_witness :
    (pick_best_strategy w1Args w3Chain wSimss).error = none ∧
    (pick_best_strategy w1Args w3Chain wSimss).recommendation
      = some (finalizeBest (pyMax1 score_candidate wCand [])) :=
  pick_best_fallback w1Args w3Chain wSimss wCand [] w1_gen w1_filter_empty

/-! ## Claim C3 -/

/-- C3: `pick_best_strategy` scores every surviving candidate as
`0.65 * expected_profit + 0.35 * (prob_profit * 100)` and returns the first
candidate (in generation order) attaining the maximal score: every earlier
surviving candidate scores strictly lower and every later one scores no
higher; generation order is all single calls (in chain order) followed by
all bull-put spreads, the spreads keyed by the ascending sorted strike
list. -/
theorem pick_best_scoring_tiebreak (args : RecArgs) (chain : Chain) (simss : ℕ → List ℚ)
    (x : Candidate) (xs : List Candidate)
    (huse : (if ((genCandidates args chain simss).filter (passesConstraints args)).isEmpty
             then genCandidates args chain simss
             else (genCandidates args chain simss).filter (passesConstraints args)) = x :: xs) :
    (∀ c : Candidate, score_candidate c
        = 65/100 * c.expected_profit.getD (-(10^18)) + 35/100 * (c.prob_profit.getD 0 * 100)) ∧
    (∃ l1 l2, x :: xs = l1 ++ pyMax1 score_candidate x xs :: l2 ∧
      (∀ c ∈ l1, score_candidate c < score_candidate (pyMax1 score_candidate x xs)) ∧
      (∀ c ∈ l2, score_candidate c ≤ score_candidate (pyMax1 score_candidate x xs)) ∧
      (∀ c ∈ x :: xs, score_candidate c ≤ score_candidate (pyMax1 score_candidate x xs))) ∧
    (pick_best_strategy args chain simss).recommendation
      = some (finalizeBest (pyMax1 score_candidate x xs)) ∧
    genCandidates args chain simss
      = (specSingles args chain.items ++ specSpreads args chain.items chain.step).enum.map
          (fun p => evalSpec args (simss p.1) p.2) ∧
    List.Sorted (· ≤ ·) (sortedKeys chain.items) := by
  refine ⟨fun c => rfl, ?_, ?_, rfl, List.sorted_insertionSort _ _⟩
  · obtain ⟨l1, l2, heq, hl1, hl2⟩ := pyMax1_decomp score_candidate xs x
    refine ⟨l1, l2, heq, hl1, hl2, ?_⟩
    intro c hc
    rw [heq] at hc
    rcases List.mem_append.1 hc with hc | hc
    · exact (hl1 c hc).le
    rcases List.mem_cons.1 hc with rfl | hc
    · exact le_refl _
    · exact hl2 c hc
  · rw [pick_best_eval_use args chain simss x xs huse]

/-- Witness for C3 at the one-candidate fixture with default constraints. -/
theorem pick_best_scoring_tiebreak_witness :
    (∀ c : Candidate, score_candidate c
        = 65/100 * c.expected_profit.getD (-(10^18)) + 35/100 * (c.prob_profit.getD 0 * 100)) ∧
    (∃ l1 l2, wCand :: [] = l1 ++ pyMax1 score_candidate wCand [] :: l2 ∧
      (∀ c ∈ l1, score_candidate c < score_candidate (pyMax1 score_candidate wCand [])) ∧
      (∀ c ∈ l2, score_candidate c ≤ score_candidate (pyMax1 score_candidate wCand [])) ∧
      (∀ c ∈ wCand :: [], score_candidate c ≤ score_candidate (pyMax1 score_candidate wCand []))) ∧
    (pick_best_strategy w3Args w3Chain wSimss).recommendation
      = some (finalizeBest (pyMax1 score_candidate wCand [])) ∧
    genCandidates w3Args w3Chain wSimss
      = (specSingles w3Args w3Chain.items
          ++ specSpreads w3Args w3Chain.items w3Chain.step).enum.map
          (fun p => evalSpec w3Args (wSimss p.1) p.2) ∧
    List.Sorted (· ≤ ·) (sortedKeys w3Chain.items) :=
  pick_best_scoring_tiebreak w3Args w3Chain wSimss wCand []
    (by
      rw [w3_gen, List.filter_cons, wCand_pass_w3]
      simp)

end OptionsCockpit
